import Mathlib

/-!
Verification of the concurrent chunked aggregation engine of the 1brc
repository (src/src/main/rust/src/main.rs) against its specification.

Modelling conventions:
* Rust `i32` values are Lean `Int`s; where the code performs `i32`
  arithmetic that can overflow (release-profile two's-complement
  wrapping), the model applies `wrap32` explicitly.
* Rust `u32` counters are Lean `Nat`s reduced `% 2^32` where the code
  increments them.
* Byte strings (`&[u8]`, `&str` contents) are `List Nat` of byte values.
* Fallible code returns `Option`; a Rust panic (`unreachable!()`,
  poisoned-lock `panic` call) is modelled as a distinguished outcome.
* The station-name hash (`Record::uuid`, an external `foldhash` call) is
  an abstract parameter `h : List Nat → Nat`: every property proved here
  holds for an arbitrary deterministic hash function.
-/

namespace OneBrc

/-- Two's-complement wrap of an unbounded integer into the `i32` range,
`[-2^31, 2^31)`.  This is what Rust release-mode `i32` addition computes. -/
def wrap32 (x : Int) : Int :=
  (x + 2147483648) % 4294967296 - 2147483648

theorem wrap32_eq_self (x : Int) (h1 : -2147483648 ≤ x) (h2 : x < 2147483648) :
    wrap32 x = x := by
  unfold wrap32
  rw [Int.emod_eq_of_lt (by omega) (by omega)]
  omega

theorem wrap32_wrap_left (x y : Int) : wrap32 (wrap32 x + y) = wrap32 (x + y) := by
  unfold wrap32
  have h : (x + 2147483648) % 4294967296 - 2147483648 + y + 2147483648
      = (x + 2147483648) % 4294967296 + y := by ring
  rw [h, Int.emod_add_emod]
  have h2 : x + 2147483648 + y = x + y + 2147483648 := by ring
  rw [h2]

theorem wrap32_wrap_right (x y : Int) : wrap32 (x + wrap32 y) = wrap32 (x + y) := by
  have h : x + wrap32 y = wrap32 y + x := by ring
  have h2 : x + y = y + x := by ring
  rw [h, h2, wrap32_wrap_left]

/-- The per-station aggregate, mirroring `struct StationValues` of the
source: `min`, `max`, `sum` are `i32` fields, `count` is `u32`. -/
structure StationValues where
  min : Int
  max : Int
  sum : Int
  count : Nat
deriving Repr, DecidableEq

/-- Model of `StationValues::new(initial_value)` of the source. -/
def StationValues.new (initial_value : Int) : StationValues :=
  { min := initial_value, max := initial_value, sum := initial_value, count := 1 }

/-- Model of `StationValues::update(&mut self, new_value)` of the source:
`max = max(max, v); min = min(min, v); sum += v; count += 1`, with the
`i32`/`u32` additions wrapping. -/
def StationValues.update (s : StationValues) (new_value : Int) : StationValues :=
  { min := Min.min s.min new_value
    max := Max.max s.max new_value
    sum := wrap32 (s.sum + new_value)
    count := (s.count + 1) % 4294967296 }

/-- Model of `StationValues::merge(&mut self, other)` of the source. -/
def StationValues.merge (s other : StationValues) : StationValues :=
  { min := Min.min s.min other.min
    max := Max.max s.max other.max
    sum := wrap32 (s.sum + other.sum)
    count := (s.count + other.count) % 4294967296 }

theorem StationValues.merge_comm (a b : StationValues) : a.merge b = b.merge a := by
  simp only [merge, mk.injEq]
  refine ⟨min_comm _ _, max_comm _ _, by rw [Int.add_comm], by rw [Nat.add_comm]⟩

theorem StationValues.merge_assoc (a b c : StationValues) :
    (a.merge b).merge c = a.merge (b.merge c) := by
  simp only [merge, mk.injEq]
  refine ⟨min_assoc _ _ _, max_assoc _ _ _, ?_, ?_⟩
  · rw [wrap32_wrap_left, wrap32_wrap_right, Int.add_assoc]
  · omega

theorem StationValues.update_eq_merge_new (s : StationValues) (v : Int) :
    s.update v = s.merge (StationValues.new v) := by
  simp only [update, merge, new]

theorem StationValues.merge_update (s t : StationValues) (v : Int) :
    (s.merge t).update v = s.merge (t.update v) := by
  rw [update_eq_merge_new, update_eq_merge_new, merge_assoc]

/-- Folding a nonempty sequence of observed values `v :: l` directly into
one aggregate, as the chunk aggregator does: start from
`StationValues::new v` and `update` with each further value. -/
def aggNE (v : Int) (l : List Int) : StationValues :=
  l.foldl StationValues.update (StationValues.new v)

theorem foldl_update_merge (s t : StationValues) (l : List Int) :
    l.foldl StationValues.update (s.merge t) = s.merge (l.foldl StationValues.update t) := by
  induction l generalizing t with
  | nil => rfl
  | cons v l ih =>
      simp only [List.foldl_cons]
      rw [StationValues.merge_update, ih]

theorem aggNE_append (v₁ : Int) (l₁ : List Int) (v₂ : Int) (l₂ : List Int) :
    aggNE v₁ (l₁ ++ v₂ :: l₂) = (aggNE v₁ l₁).merge (aggNE v₂ l₂) := by
  unfold aggNE
  rw [List.foldl_append, List.foldl_cons,
    StationValues.update_eq_merge_new, foldl_update_merge]

theorem foldl_update_min (s : StationValues) (l : List Int) :
    (l.foldl StationValues.update s).min = l.foldl Min.min s.min := by
  induction l generalizing s with
  | nil => rfl
  | cons v l ih => simp only [List.foldl_cons]; rw [ih]; rfl

theorem foldl_update_max (s : StationValues) (l : List Int) :
    (l.foldl StationValues.update s).max = l.foldl Max.max s.max := by
  induction l generalizing s with
  | nil => rfl
  | cons v l ih => simp only [List.foldl_cons]; rw [ih]; rfl

theorem foldl_update_count (s : StationValues) (l : List Int)
    (hs : s.count < 4294967296) :
    (l.foldl StationValues.update s).count = (s.count + l.length) % 4294967296 := by
  induction l generalizing s with
  | nil => simp [Nat.mod_eq_of_lt hs]
  | cons v l ih =>
      simp only [List.foldl_cons, List.length_cons]
      rw [ih (s := s.update v) (Nat.mod_lt _ (by omega))]
      simp only [StationValues.update]
      omega

theorem foldl_update_sum (s : StationValues) (l : List Int) (hl : l ≠ []) :
    (l.foldl StationValues.update s).sum = wrap32 (s.sum + l.sum) := by
  induction l generalizing s with
  | nil => exact absurd rfl hl
  | cons v l ih =>
      by_cases h : l = []
      · subst h; simp [StationValues.update]
      · simp only [List.foldl_cons, List.sum_cons]
        rw [ih _ h]
        simp only [StationValues.update]
        rw [wrap32_wrap_left, Int.add_assoc]

theorem foldl_min_le_init (a : Int) (l : List Int) : l.foldl Min.min a ≤ a := by
  induction l generalizing a with
  | nil => exact le_refl a
  | cons v l ih => exact le_trans (ih (Min.min a v)) (min_le_left a v)

theorem foldl_min_le_mem (a x : Int) (l : List Int) (hx : x ∈ l) :
    l.foldl Min.min a ≤ x := by
  induction l generalizing a with
  | nil => cases hx
  | cons v l ih =>
      simp only [List.foldl_cons]
      rcases List.mem_cons.mp hx with h | h
      · subst h
        exact le_trans (foldl_min_le_init (Min.min a x) l) (min_le_right a x)
      · exact ih (Min.min a v) h

theorem le_foldl_max_init (a : Int) (l : List Int) : a ≤ l.foldl Max.max a := by
  induction l generalizing a with
  | nil => exact le_refl a
  | cons v l ih => exact le_trans (le_max_left a v) (ih (Max.max a v))

theorem le_foldl_max_mem (a x : Int) (l : List Int) (hx : x ∈ l) :
    x ≤ l.foldl Max.max a := by
  induction l generalizing a with
  | nil => cases hx
  | cons v l ih =>
      simp only [List.foldl_cons]
      rcases List.mem_cons.mp hx with h | h
      · subst h
        exact le_trans (le_max_right a x) (le_foldl_max_init (Max.max a x) l)
      · exact ih (Max.max a v) h

theorem aggNE_sum (v : Int) (l : List Int)
    (h1 : -2147483648 ≤ v) (h2 : v < 2147483648) :
    (aggNE v l).sum = wrap32 (v + l.sum) := by
  unfold aggNE
  rcases l with _ | ⟨w, l⟩
  · simp [StationValues.new, wrap32_eq_self v h1 h2]
  · rw [foldl_update_sum _ _ (by simp)]
    rfl

/-- C3: the merge/update algebra of `StationValues`: `merge` is
commutative and associative, folding a concatenation of two nonempty value
sequences directly equals merging the two per-group aggregates, and
`update` is the special case of `merge` with a fresh single-value
aggregate.  Together these make any order and association of per-group
merges agree field-for-field with the direct fold. -/
theorem c3_merge_commutative_associative_homomorphic :
    (∀ a b : StationValues, a.merge b = b.merge a) ∧
    (∀ a b c : StationValues, (a.merge b).merge c = a.merge (b.merge c)) ∧
    (∀ (v₁ : Int) (l₁ : List Int) (v₂ : Int) (l₂ : List Int),
      aggNE v₁ (l₁ ++ v₂ :: l₂) = (aggNE v₁ l₁).merge (aggNE v₂ l₂)) ∧
    (∀ (s : StationValues) (v : Int), s.update v = s.merge (StationValues.new v)) :=
  ⟨StationValues.merge_comm, StationValues.merge_assoc, aggNE_append,
    StationValues.update_eq_merge_new⟩

/-- C4 counterexample: folding 214770 copies of the scaled value 9999
(i.e. 999.9) overflows the `i32` sum field: the exact unbounded-integer
sum is 2147485230, but the aggregate ends with `sum = -2147482066`. -/
theorem c4_cex_sum_overflows :
    (aggNE 9999 (List.replicate 214769 9999)).sum = -2147482066 ∧
    (9999 : Int) + (List.replicate 214769 (9999 : Int)).sum = 2147485230 := by
  have hs : (List.replicate 214769 (9999 : Int)).sum = 2147475231 := by
    rw [List.sum_replicate, nsmul_eq_mul]
    decide
  constructor
  · rw [aggNE_sum 9999 _ (by decide) (by decide), hs]
    decide
  · rw [hs]
    decide

/-- C4 (amended): folding observed `i32` values `v :: l` via
`StationValues::new`/`update` gives exact `min` and `max` (so
`min ≤ every observed value ≤ max`), `count` equal to the number of
observations reduced mod `2^32` (hence `≥ 1` while fewer than `2^32`
observations have been folded), and `sum` equal to the exact
unbounded-integer sum reduced to 32-bit two's complement — which equals
the exact sum whenever that sum lies in the `i32` range. -/
theorem c4_aggregate_fields (v : Int) (l : List Int)
    (hv1 : -2147483648 ≤ v) (hv2 : v < 2147483648) :
    (aggNE v l).min = l.foldl Min.min v ∧
    (aggNE v l).max = l.foldl Max.max v ∧
    (∀ x ∈ v :: l, (aggNE v l).min ≤ x ∧ x ≤ (aggNE v l).max) ∧
    (aggNE v l).count = (1 + l.length) % 4294967296 ∧
    (1 + l.length < 4294967296 → 1 ≤ (aggNE v l).count) ∧
    (aggNE v l).sum = wrap32 (v + l.sum) ∧
    (-2147483648 ≤ v + l.sum → v + l.sum < 2147483648 →
      (aggNE v l).sum = v + l.sum) := by
  have hmin : (aggNE v l).min = l.foldl Min.min v := foldl_update_min _ _
  have hmax : (aggNE v l).max = l.foldl Max.max v := foldl_update_max _ _
  have hcount : (aggNE v l).count = (1 + l.length) % 4294967296 :=
    foldl_update_count _ _ (by simp [StationValues.new])
  have hsum : (aggNE v l).sum = wrap32 (v + l.sum) := aggNE_sum v l hv1 hv2
  refine ⟨hmin, hmax, ?_, hcount, ?_, hsum, ?_⟩
  · intro x hx
    rcases List.mem_cons.mp hx with h | h
    · subst h
      exact ⟨hmin ▸ foldl_min_le_init _ _, hmax ▸ le_foldl_max_init _ _⟩
    · exact ⟨hmin ▸ foldl_min_le_mem _ _ _ h, hmax ▸ le_foldl_max_mem _ _ _ h⟩
  · intro hlen
    rw [hcount, Nat.mod_eq_of_lt hlen]
    omega
  · intro h1 h2
    rw [hsum, wrap32_eq_self _ h1 h2]

/-! ### The value parser (`parse_i32` and its `i32::from_ascii` collaborator) -/

/-- Outcome of `parse_i32`: `ok v` for `Ok(v)`, `err` for a
`ParseIntError` propagated from `i32::from_ascii`, and `panic` for the
`unreachable!()` arm reached by a token of unrecognized shape. -/
inductive ParseOutcome where
  | ok (v : Int)
  | err
  | panic
deriving Repr, DecidableEq

/-- ASCII digit test, `48 ≤ b ≤ 57`. -/
def isDigit (b : Nat) : Bool := decide (48 ≤ b ∧ b ≤ 57)

/-- The numeric value of a big-endian list of ASCII digit bytes. -/
def digitsVal (ds : List Nat) : Nat :=
  ds.foldl (fun acc d => 10 * acc + (d - 48)) 0

/-- Sign-and-digits tail of `i32::from_ascii`: at least one ASCII digit,
value (after the sign) within the `i32` range. -/
def fromDigits (sign : Int) (ds : List Nat) : Option Int :=
  if ds = [] then none
  else if ds.all isDigit then
    if -2147483648 ≤ sign * (digitsVal ds : Int) ∧
        sign * (digitsVal ds : Int) ≤ 2147483647 then
      some (sign * (digitsVal ds : Int))
    else none
  else none

/-- Models `i32::from_ascii` of the Rust standard library (the external
parsing collaborator): an optional leading `+` (43) or `-` (45) sign
followed by at least one ASCII digit, result within the `i32` range;
anything else is a `ParseIntError` (`none`). -/
def from_ascii (l : List Nat) : Option Int :=
  match l with
  | [] => none
  | b :: rest =>
    if b = 43 then fromDigits 1 rest
    else if b = 45 then fromDigits (-1) rest
    else fromDigits 1 l

/-- Lifts the `?`-propagated result of `from_ascii` into `Ok(v)` / `Err`. -/
def okPos : Option Int → ParseOutcome
  | some v => .ok v
  | none => .err

/-- As `okPos`, but for the arms of `parse_i32` that return `Ok(-val)`. -/
def okNeg : Option Int → ParseOutcome
  | some v => .ok (-v)
  | none => .err

/-- Model of `parse_i32` of the source.  The Rust slice patterns
`[b'-', h2, h1, h0, b'.', l]`, `[b'-', h1, h0, b'.', l]`,
`[b'-', h0, b'.', l]`, `[h2, h1, h0, b'.', l]`, `[h1, h0, b'.', l]`,
`[h0, b'.', l]` are compiled here by token length, preserving the source
order of the two overlapping patterns per length; `_ => unreachable!()`
becomes `.panic`. -/
def parse_i32 (value : List Nat) : ParseOutcome :=
  match value with
  | [s, h2, h1, h0, d, l] =>
      if s = 45 ∧ d = 46 then okNeg (from_ascii [h2, h1, h0, l]) else .panic
  | [p0, p1, p2, p3, p4] =>
      if p0 = 45 ∧ p3 = 46 then okNeg (from_ascii [p1, p2, p4])
      else if p3 = 46 then okPos (from_ascii [p0, p1, p2, p4])
      else .panic
  | [p0, p1, p2, p3] =>
      if p0 = 45 ∧ p2 = 46 then okNeg (from_ascii [p1, p3])
      else if p2 = 46 then okPos (from_ascii [p0, p1, p3])
      else .panic
  | [p0, p1, p2] =>
      if p1 = 46 then okPos (from_ascii [p0, p2]) else .panic
  | _ => .panic

theorem digitsVal_foldl_lt (acc : Nat) (ds : List Nat)
    (hd : ∀ b ∈ ds, b ≤ 57) :
    ds.foldl (fun acc d => 10 * acc + (d - 48)) acc < (acc + 1) * 10 ^ ds.length := by
  induction ds generalizing acc with
  | nil => simp
  | cons d ds ih =>
      simp only [List.foldl_cons, List.length_cons]
      calc List.foldl (fun acc d => 10 * acc + (d - 48)) (10 * acc + (d - 48)) ds
          < (10 * acc + (d - 48) + 1) * 10 ^ ds.length :=
            ih _ (fun b hb => hd b (List.mem_cons_of_mem d hb))
        _ ≤ ((acc + 1) * 10) * 10 ^ ds.length := by
            have hd57 : d ≤ 57 := hd d (List.mem_cons_self d ds)
            have : 10 * acc + (d - 48) + 1 ≤ (acc + 1) * 10 := by omega
            exact Nat.mul_le_mul_right _ this
        _ = (acc + 1) * 10 ^ (ds.length + 1) := by ring

theorem digitsVal_lt (ds : List Nat) (hd : ∀ b ∈ ds, b ≤ 57) :
    digitsVal ds < 10 ^ ds.length := by
  simpa using digitsVal_foldl_lt 0 ds hd

theorem from_ascii_digits (ds : List Nat) (hne : ds ≠ [])
    (hd : ∀ b ∈ ds, 48 ≤ b ∧ b ≤ 57) (hlen : ds.length ≤ 4) :
    from_ascii ds = some ((digitsVal ds : Int)) := by
  have hbound : digitsVal ds < 10000 := by
    calc digitsVal ds < 10 ^ ds.length := digitsVal_lt ds (fun b hb => (hd b hb).2)
      _ ≤ 10 ^ 4 := Nat.pow_le_pow_right (by omega) hlen
      _ = 10000 := by norm_num
  match ds, hne with
  | b :: rest, _ =>
    have hb := hd b (List.mem_cons_self b rest)
    have hall : (b :: rest).all isDigit = true :=
      List.all_eq_true.mpr fun x hx => by
        simp only [isDigit, decide_eq_true_eq]
        exact hd x hx
    have hrange : -2147483648 ≤ (1 : Int) * (digitsVal (b :: rest) : Int) ∧
        (1 : Int) * (digitsVal (b :: rest) : Int) ≤ 2147483647 := by
      rw [one_mul]
      omega
    simp only [from_ascii]
    rw [if_neg (by omega : ¬b = 43), if_neg (by omega : ¬b = 45)]
    unfold fromDigits
    rw [if_neg (by simp : ¬(b :: rest = [])), if_pos hall, if_pos hrange, one_mul]

theorem all_isDigit_false (l : List Nat) (hne : l ≠ [])
    (h : ∀ b ∈ l, ¬(48 ≤ b ∧ b ≤ 57)) : l.all isDigit = false := by
  match l, hne with
  | b :: rest, _ =>
    apply List.all_eq_false.mpr
    refine ⟨b, List.mem_cons_self b rest, ?_⟩
    simp only [isDigit, decide_eq_true_eq]
    exact h b (List.mem_cons_self b rest)

theorem from_ascii_nondigits (ds : List Nat) (hne : ds ≠ [])
    (h : ∀ b ∈ ds, ¬(48 ≤ b ∧ b ≤ 57)) : from_ascii ds = none := by
  match ds, hne with
  | b :: rest, _ =>
    simp only [from_ascii]
    by_cases hb43 : b = 43
    · rw [if_pos hb43]
      unfold fromDigits
      rcases Decidable.em (rest = []) with hr | hr
      · rw [if_pos hr]
      · rw [if_neg hr,
          all_isDigit_false rest hr (fun x hx => h x (List.mem_cons_of_mem b hx))]
        simp
    · rw [if_neg hb43]
      by_cases hb45 : b = 45
      · rw [if_pos hb45]
        unfold fromDigits
        rcases Decidable.em (rest = []) with hr | hr
        · rw [if_pos hr]
        · rw [if_neg hr,
            all_isDigit_false rest hr (fun x hx => h x (List.mem_cons_of_mem b hx))]
          simp
      · rw [if_neg hb45]
        unfold fromDigits
        rw [if_neg (by simp),
          all_isDigit_false (b :: rest) (by simp) h]
        simp

/-- C2 counterexample: the token `1000.0` matches the claimed value
grammar — a decimal number with exactly one fractional digit, no sign,
magnitude 1000 < 10000 — yet `parse_i32` has no arm for a six-byte token
without a leading `-` (nor a seven-byte one with it), so it falls to
`unreachable!()` and panics instead of returning `Ok 10000`. -/
theorem c2_cex_four_digit_token_panics :
    parse_i32 [49, 48, 48, 48, 46, 48] = ParseOutcome.panic ∧
    parse_i32 [49, 48, 48, 48, 46, 48] ≠ ParseOutcome.ok 10000 := by
  constructor
  · rfl
  · decide

/-- C2 (amended): `parse_i32` on the value grammar restricted to
magnitude below 1000.  First conjunct: on every token with an optional
leading `-` (45), one to three integer digits (so the scaled magnitude
stays below 10000, matching the source comment `Parses ints values
between -9999 to 9999`; four integer digits instead panic, see the
counterexample), `.` (46), and exactly one fractional digit, it returns
`Ok` of the value scaled by 10.  Second conjunct: on a token of any of
the six recognized shapes whose digit positions are all non-digits, it
returns a parse failure (`Err`), not a panic. -/
theorem c2_parse_i32_value_grammar :
    (∀ (ds : List Nat) (f : Nat), 1 ≤ ds.length → ds.length ≤ 3 →
      (∀ b ∈ ds, 48 ≤ b ∧ b ≤ 57) → 48 ≤ f → f ≤ 57 →
      parse_i32 (ds ++ [46, f]) =
        ParseOutcome.ok (10 * (digitsVal ds : Int) + ((f : Int) - 48)) ∧
      parse_i32 (45 :: ds ++ [46, f]) =
        ParseOutcome.ok (-(10 * (digitsVal ds : Int) + ((f : Int) - 48)))) ∧
    (∀ q r s u : Nat, ¬(48 ≤ q ∧ q ≤ 57) → ¬(48 ≤ r ∧ r ≤ 57) →
      ¬(48 ≤ s ∧ s ≤ 57) → ¬(48 ≤ u ∧ u ≤ 57) →
      parse_i32 [45, q, r, s, 46, u] = ParseOutcome.err ∧
      parse_i32 [45, q, r, 46, u] = ParseOutcome.err ∧
      parse_i32 [45, q, 46, u] = ParseOutcome.err ∧
      parse_i32 [q, r, s, 46, u] = ParseOutcome.err ∧
      parse_i32 [q, r, 46, u] = ParseOutcome.err ∧
      parse_i32 [q, 46, u] = ParseOutcome.err) := by
  constructor
  · intro ds f hlen1 hlen3 hds hf1 hf2
    match ds, hlen1, hlen3 with
    | [a], _, _ =>
      have ha := hds a (by simp)
      have hd2 : ∀ b ∈ [a, f], 48 ≤ b ∧ b ≤ 57 := by
        intro b hb
        fin_cases hb
        · exact ha
        · exact ⟨hf1, hf2⟩
      constructor
      · show parse_i32 [a, 46, f] = _
        simp only [parse_i32, and_self, and_true, true_and, if_true]
        rw [from_ascii_digits [a, f] (by simp) hd2 (by simp)]
        simp only [okPos, ParseOutcome.ok.injEq, digitsVal, List.foldl_cons,
          List.foldl_nil]
        omega
      · show parse_i32 [45, a, 46, f] = _
        simp only [parse_i32, and_self, and_true, true_and, if_true]
        rw [from_ascii_digits [a, f] (by simp) hd2 (by simp)]
        simp only [okNeg, ParseOutcome.ok.injEq, digitsVal, List.foldl_cons,
          List.foldl_nil]
        omega
    | [a, b], _, _ =>
      have ha := hds a (by simp)
      have hb := hds b (by simp)
      have hd3 : ∀ x ∈ [a, b, f], 48 ≤ x ∧ x ≤ 57 := by
        intro x hx
        fin_cases hx
        · exact ha
        · exact hb
        · exact ⟨hf1, hf2⟩
      constructor
      · show parse_i32 [a, b, 46, f] = _
        simp only [parse_i32, and_self, and_true, true_and, if_true]
        rw [if_neg (by omega : ¬a = 45),
          from_ascii_digits [a, b, f] (by simp) hd3 (by simp)]
        simp only [okPos, ParseOutcome.ok.injEq, digitsVal, List.foldl_cons,
          List.foldl_nil]
        omega
      · show parse_i32 [45, a, b, 46, f] = _
        simp only [parse_i32, and_self, and_true, true_and, if_true]
        rw [from_ascii_digits [a, b, f] (by simp) hd3 (by simp)]
        simp only [okNeg, ParseOutcome.ok.injEq, digitsVal, List.foldl_cons,
          List.foldl_nil]
        omega
    | [a, b, c], _, _ =>
      have ha := hds a (by simp)
      have hb := hds b (by simp)
      have hc := hds c (by simp)
      have hd4 : ∀ x ∈ [a, b, c, f], 48 ≤ x ∧ x ≤ 57 := by
        intro x hx
        fin_cases hx
        · exact ha
        · exact hb
        · exact hc
        · exact ⟨hf1, hf2⟩
      constructor
      · show parse_i32 [a, b, c, 46, f] = _
        simp only [parse_i32, and_self, and_true, true_and, if_true]
        rw [if_neg (by omega : ¬a = 45),
          from_ascii_digits [a, b, c, f] (by simp) hd4 (by simp)]
        simp only [okPos, ParseOutcome.ok.injEq, digitsVal, List.foldl_cons,
          List.foldl_nil]
        omega
      · show parse_i32 [45, a, b, c, 46, f] = _
        simp only [parse_i32, and_self, and_true, true_and, if_true]
        rw [from_ascii_digits [a, b, c, f] (by simp) hd4 (by simp)]
        simp only [okNeg, ParseOutcome.ok.injEq, digitsVal, List.foldl_cons,
          List.foldl_nil]
        omega
    | a :: b :: c :: d :: tl, _, hlen3 => simp at hlen3
  · intro q r s u hq hr hs hu
    have hnd4 : ∀ b ∈ [q, r, s, u], ¬(48 ≤ b ∧ b ≤ 57) := by
      intro b hb
      fin_cases hb <;> assumption
    have hnd3 : ∀ b ∈ [q, r, u], ¬(48 ≤ b ∧ b ≤ 57) := by
      intro b hb
      fin_cases hb <;> assumption
    have hnd2 : ∀ b ∈ [q, u], ¬(48 ≤ b ∧ b ≤ 57) := by
      intro b hb
      fin_cases hb <;> assumption
    have hndru : ∀ b ∈ [r, u], ¬(48 ≤ b ∧ b ≤ 57) := by
      intro b hb
      fin_cases hb <;> assumption
    have hndrsu : ∀ b ∈ [r, s, u], ¬(48 ≤ b ∧ b ≤ 57) := by
      intro b hb
      fin_cases hb <;> assumption
    refine ⟨?_, ?_, ?_, ?_, ?_, ?_⟩
    · simp only [parse_i32, and_self, and_true, true_and, if_true]
      rw [from_ascii_nondigits [q, r, s, u] (by simp) hnd4]
      rfl
    · simp only [parse_i32, and_self, and_true, true_and, if_true]
      rw [from_ascii_nondigits [q, r, u] (by simp) hnd3]
      rfl
    · simp only [parse_i32, and_self, and_true, true_and, if_true]
      rw [from_ascii_nondigits [q, u] (by simp) hnd2]
      rfl
    · simp only [parse_i32, and_self, and_true, true_and, if_true]
      by_cases hq45 : q = 45
      · rw [if_pos hq45, from_ascii_nondigits [r, s, u] (by simp) hndrsu]
        rfl
      · rw [if_neg hq45, from_ascii_nondigits [q, r, s, u] (by simp) hnd4]
        rfl
    · simp only [parse_i32, and_self, and_true, true_and, if_true]
      by_cases hq45 : q = 45
      · rw [if_pos hq45, from_ascii_nondigits [r, u] (by simp) hndru]
        rfl
      · rw [if_neg hq45, from_ascii_nondigits [q, r, u] (by simp) hnd3]
        rfl
    · simp only [parse_i32, and_self, and_true, true_and, if_true]
      rw [from_ascii_nondigits [q, u] (by simp) hnd2]
      rfl

/-! ### Chunk lines, field splitting, and the aggregate tables -/

/-- Model of `struct Record` of the source: the displayed station name and its
`StationValues`. -/
structure Record where
  station_name : List Nat
  values : StationValues
deriving Repr, DecidableEq

/-- Model of `Record::new(station_name, initial_value)` of the source. -/
def Record.new (station_name : List Nat) (initial_value : Int) : Record :=
  { station_name := station_name, values := StationValues.new initial_value }

/-- A `HashMap<u64, Record>` modelled as an association list keyed by
the station-name hash, in insertion order. -/
abbrev Table := List (Nat × Record)

/-- First entry with key `k` (`HashMap::get`). -/
def findT (t : Table) (k : Nat) : Option Record :=
  match t with
  | [] => none
  | (k₀, r) :: rest => if k₀ = k then some r else findT rest k

/-- Apply `f` to the entry with key `k` (`HashMap::get_mut`). -/
def modifyT (t : Table) (k : Nat) (f : Record → Record) : Table :=
  match t with
  | [] => []
  | (k₀, r) :: rest =>
      if k₀ = k then (k₀, f r) :: rest else (k₀, r) :: modifyT rest k f

/-- One parsed record folded into the local table, as in
`spawn_buffer_worker`: look up `uuid = h name`; on a hit
`values.update(temp)`, otherwise insert `Record::new`. -/
def foldRecord (h : List Nat → Nat) (t : Table) (p : List Nat × Int) : Table :=
  match findT t (h p.1) with
  | some _ => modifyT t (h p.1) (fun r => { r with values := r.values.update p.2 })
  | none => t ++ [(h p.1, Record.new p.1 p.2)]

/-- Fold a list of parsed records into a fresh local table. -/
def foldRecords (h : List Nat → Nat) (l : List (List Nat × Int)) : Table :=
  l.foldl (foldRecord h) []

/-- The effect of folding one record on the entry at key `k`: on a key
hit, the stored name is kept and only the values are updated; on a miss,
a fresh record with the folded name is inserted. -/
def entryStep (h : List Nat → Nat) (k : Nat) (acc : Option Record)
    (p : List Nat × Int) : Option Record :=
  if h p.1 = k then
    match acc with
    | some r => some { r with values := r.values.update p.2 }
    | none => some (Record.new p.1 p.2)
  else acc

theorem findT_modifyT (t : Table) (κ k : Nat) (f : Record → Record) :
    findT (modifyT t κ f) k =
      if κ = k then (findT t k).map f else findT t k := by
  induction t with
  | nil => simp [modifyT, findT]
  | cons e rest ih =>
      obtain ⟨k₀, r⟩ := e
      by_cases h0 : k₀ = κ
      · subst h0
        by_cases hk : k₀ = k
        · subst hk
          simp [modifyT, findT]
        · simp [modifyT, findT, hk]
      · by_cases hk : k₀ = k
        · subst hk
          simp [modifyT, findT, h0, Ne.symm h0]
        · simp [modifyT, findT, h0, hk, ih]

theorem findT_append_single (t : Table) (κ k : Nat) (r : Record)
    (hmiss : findT t κ = none) :
    findT (t ++ [(κ, r)]) k = if κ = k then some r else findT t k := by
  induction t with
  | nil => simp [findT]
  | cons e rest ih =>
      obtain ⟨k₀, r₀⟩ := e
      by_cases hk : k₀ = k
      · subst hk
        have : ¬k₀ = κ := by
          intro hc
          subst hc
          simp [findT] at hmiss
        simp [findT, Ne.symm this]
      · have hmiss2 : findT rest κ = none := by
          by_cases h0 : k₀ = κ
          · subst h0
            simp [findT] at hmiss
          · simpa [findT, h0] using hmiss
        simp [findT, hk, ih hmiss2]

theorem findT_foldRecord (h : List Nat → Nat) (t : Table)
    (p : List Nat × Int) (k : Nat) :
    findT (foldRecord h t p) k = entryStep h k (findT t k) p := by
  unfold foldRecord entryStep
  by_cases hk : h p.1 = k
  · subst hk
    cases hfind : findT t (h p.1) with
    | none => simp [findT_append_single t (h p.1) (h p.1) _ hfind, hfind]
    | some r => simp [findT_modifyT, hfind]
  · cases hfind : findT t (h p.1) with
    | none =>
        rw [findT_append_single t (h p.1) k _ hfind, if_neg hk, if_neg hk]
    | some r =>
        rw [findT_modifyT, if_neg hk, if_neg hk]

theorem findT_foldl_foldRecord (h : List Nat → Nat) (l : List (List Nat × Int))
    (t : Table) (k : Nat) :
    findT (l.foldl (foldRecord h) t) k = l.foldl (entryStep h k) (findT t k) := by
  induction l generalizing t with
  | nil => rfl
  | cons p l ih =>
      simp only [List.foldl_cons]
      rw [ih, findT_foldRecord]

theorem foldl_entryStep_filter (h : List Nat → Nat) (k : Nat)
    (l : List (List Nat × Int)) (acc : Option Record) :
    l.foldl (entryStep h k) acc =
      (l.filter fun p => h p.1 = k).foldl (entryStep h k) acc := by
  induction l generalizing acc with
  | nil => rfl
  | cons p l ih =>
      by_cases hp : h p.1 = k
      · simp only [List.foldl_cons, List.filter_cons]
        rw [if_pos (by simp [hp])]
        simp only [List.foldl_cons]
        exact ih _
      · simp only [List.foldl_cons, List.filter_cons]
        rw [if_neg (by simp [hp]),
          show entryStep h k acc p = acc by simp [entryStep, hp]]
        exact ih _

theorem foldl_entryStep_hits (h : List Nat → Nat) (k : Nat)
    (rest : List (List Nat × Int)) (r : Record)
    (hall : ∀ p ∈ rest, h p.1 = k) :
    rest.foldl (entryStep h k) (some r) =
      some { station_name := r.station_name,
             values := (rest.map Prod.snd).foldl StationValues.update r.values } := by
  induction rest generalizing r with
  | nil => rfl
  | cons p rest ih =>
      have hp := hall p (List.mem_cons_self p rest)
      simp only [List.foldl_cons, List.map_cons]
      rw [show entryStep h k (some r) p =
        some { r with values := r.values.update p.2 } by simp [entryStep, hp]]
      exact ih _ (fun q hq => hall q (List.mem_cons_of_mem p hq))

/-- One drained entry folded into the shared table, as in
`read_queue_to_map`: on a key hit `values.merge`, otherwise insert the
drained record. -/
def mergeRecord (m : Table) (p : Nat × Record) : Table :=
  match findT m p.1 with
  | some _ => modifyT m p.1 (fun r => { r with values := r.values.merge p.2.values })
  | none => m ++ [p]

/-- The fold of `read_queue_to_map` of one drained table into the shared
table (the `flatten().for_each(...)` body applied entry by entry). -/
def mergeTable (m : Table) (t : Table) : Table :=
  t.foldl mergeRecord m

/-- The effect of `mergeRecord` on the entry at key `k`: a hit merges
values and keeps the existing name; a miss inserts the drained record. -/
def mergeEntryStep (k : Nat) (acc : Option Record) (p : Nat × Record) :
    Option Record :=
  if p.1 = k then
    match acc with
    | some r => some { r with values := r.values.merge p.2.values }
    | none => some p.2
  else acc

theorem findT_mergeRecord (m : Table) (p : Nat × Record) (k : Nat) :
    findT (mergeRecord m p) k = mergeEntryStep k (findT m k) p := by
  unfold mergeRecord mergeEntryStep
  by_cases hk : p.1 = k
  · subst hk
    cases hfind : findT m p.1 with
    | none => simp [findT_append_single m p.1 p.1 _ hfind, hfind]
    | some r => simp [findT_modifyT, hfind]
  · cases hfind : findT m p.1 with
    | none => rw [findT_append_single m p.1 k _ hfind, if_neg hk, if_neg hk]
    | some r => rw [findT_modifyT, if_neg hk, if_neg hk]

/-- C10: both tables are keyed by the 64-bit station-name hash with no
collision check.  First conjunct (local table): for any hash function
`h`, whenever the records of a chunk whose names hash to `k` are
`(n₀, v₀) :: rest` — byte-identical names always fall in the same class,
and so do distinct names with colliding hashes — the table's entry at
`k` carries only the first-seen name `n₀` and folds the values of every
colliding record.  Second conjunct (shared table): merging a drained
entry into the shared table updates only the values of an existing entry
at the same key, keeping its first-seen name. -/
theorem c10_hash_keyed_no_collision_check :
    (∀ (h : List Nat → Nat) (l : List (List Nat × Int)) (k : Nat)
      (n₀ : List Nat) (v₀ : Int) (rest : List (List Nat × Int)),
      (l.filter fun p => h p.1 = k) = (n₀, v₀) :: rest →
      findT (foldRecords h l) k =
        some { station_name := n₀, values := aggNE v₀ (rest.map Prod.snd) }) ∧
    (∀ (m : Table) (p : Nat × Record) (k : Nat),
      findT (mergeRecord m p) k = mergeEntryStep k (findT m k) p) := by
  constructor
  · intro h l k n₀ v₀ rest hfilter
    have hall : ∀ p ∈ rest, h p.1 = k := by
      intro p hp
      have hmem : p ∈ l.filter fun q => h q.1 = k := by
        rw [hfilter]
        exact List.mem_cons_of_mem _ hp
      have := List.of_mem_filter hmem
      exact of_decide_eq_true this
    have hn₀ : h n₀ = k := by
      have hmem : (n₀, v₀) ∈ l.filter fun q => h q.1 = k := by
        rw [hfilter]
        exact List.mem_cons_self _ _
      have := List.of_mem_filter hmem
      exact of_decide_eq_true this
    unfold foldRecords
    rw [findT_foldl_foldRecord, foldl_entryStep_filter, hfilter]
    show ((n₀, v₀) :: rest).foldl (entryStep h k) (findT ([] : Table) k) = _
    simp only [List.foldl_cons, findT]
    rw [show entryStep h k none (n₀, v₀) = some (Record.new n₀ v₀) by
      simp [entryStep, hn₀]]
    rw [foldl_entryStep_hits h k rest _ hall]
    rfl
  · intro m p k
    exact findT_mergeRecord m p k

/-- C10 witness: with a hash that sends every name to 0, the records of
the two distinct names `A` and `B` collide into one entry that carries
the first-seen name `A` and both values. -/
theorem c10_hash_keyed_no_collision_check_witness :
    findT (foldRecords (fun _ => 0) [([65], 1), ([66], 2)]) 0 =
      some { station_name := [65], values := aggNE 1 [2] } :=
  c10_hash_keyed_no_collision_check.1 (fun _ => 0) [([65], 1), ([66], 2)] 0
    [65] 1 [([66], 2)] (by decide)

/-- C2 witness: the theorem evaluated at the grammar tokens `12.3` and
`-12.3` and the recognized-shape token `a.b` with non-digit positions. -/
theorem c2_parse_i32_value_grammar_witness :
    parse_i32 [49, 50, 46, 51] = ParseOutcome.ok 123 ∧
    parse_i32 [45, 49, 50, 46, 51] = ParseOutcome.ok (-123) ∧
    parse_i32 [97, 46, 98] = ParseOutcome.err := by
  have h1 := c2_parse_i32_value_grammar.1 [49, 50] 51 (by decide) (by decide)
    (by intro b hb; fin_cases hb <;> exact ⟨by norm_num, by norm_num⟩)
    (by decide) (by decide)
  have h2 := c2_parse_i32_value_grammar.2 97 97 97 98 (by decide) (by decide)
    (by decide) (by decide)
  have hv : 10 * ((digitsVal [49, 50] : Nat) : Int) + (((51 : Nat) : Int) - 48) = 123 := by
    decide
  refine ⟨?_, ?_, h2.2.2.2.2.2⟩
  · have := h1.1
    rw [hv] at this
    exact this
  · have := h1.2
    rw [hv] at this
    exact this

/-- C4 witness: the amended statement evaluated on the concrete
observation sequence `5 :: [17, -3]`. -/
theorem c4_aggregate_fields_witness :
    (aggNE 5 [17, -3]).min = -3 ∧ (aggNE 5 [17, -3]).max = 17 ∧
    (aggNE 5 [17, -3]).sum = 19 ∧ (aggNE 5 [17, -3]).count = 3 := by
  have h := c4_aggregate_fields 5 [17, -3] (by decide) (by decide)
  refine ⟨?_, ?_, ?_, ?_⟩
  · rw [h.1]; decide
  · rw [h.2.1]; decide
  · rw [h.2.2.2.2.2.1]; decide
  · rw [h.2.2.2.1]; decide

/-! ### Publication with `try_lock` and exponential backoff (C9) -/

/-- The `BufReader` state: the currently buffered bytes and the bytes of
the underlying source not yet read. -/
structure ReaderSt where
  buf : List Nat
  src : List Nat
deriving Repr, DecidableEq

/-- Model of `fill_buf()? .to_vec()` + `consume(len)` at the top of the `exec`
loop: `fill_buf` returns the buffered bytes, refilling (up to `cap`
bytes of a regular file) only when the buffer is empty, and `consume`
then discards everything that was returned. -/
def fillConsume (cap : Nat) (st : ReaderSt) : List Nat × ReaderSt :=
  match st.buf with
  | [] => (st.src.take cap, ⟨[], st.src.drop cap⟩)
  | b :: rest => (b :: rest, ⟨[], st.src⟩)

/-- Model of `read_until(b'\n', &mut bytes_buffer)` starting from an empty
buffer: consume bytes up to and including the next newline (or to end
of input), refilling in blocks of `cap` bytes; `pos` counts the bytes
left in the current block (0 means the next byte starts a fresh block).
The bytes of the current block after a found newline stay buffered. -/
def readUntilGo (cap : Nat) : Nat → List Nat → List Nat × ReaderSt
  | _, [] => ([], ⟨[], []⟩)
  | pos, b :: rest =>
      if b = 10 then
        ([10], ⟨rest.take ((if pos = 0 then cap else pos) - 1),
          rest.drop ((if pos = 0 then cap else pos) - 1)⟩)
      else
        (b :: (readUntilGo cap ((if pos = 0 then cap else pos) - 1) rest).1,
          (readUntilGo cap ((if pos = 0 then cap else pos) - 1) rest).2)

/-- The chunk loop of `StationMap::exec`, with explicit recursion fuel:
each iteration takes the buffered-or-refilled block as the chunk head,
extends it with `read_until` to the first following newline, and an
empty buffer breaks the loop.  Each produced chunk consumes at least one
byte, so the wrapper `chunkLoop` always supplies enough fuel. -/
def chunkLoopF (cap : Nat) : Nat → ReaderSt → List (List Nat)
  | 0, _ => []
  | fuel + 1, st =>
      if (fillConsume cap st).1 ++ (readUntilGo cap 0 (fillConsume cap st).2.src).1 = []
      then []
      else ((fillConsume cap st).1 ++ (readUntilGo cap 0 (fillConsume cap st).2.src).1) ::
        chunkLoopF cap fuel (readUntilGo cap 0 (fillConsume cap st).2.src).2

/-- The chunk production of `StationMap::exec` over a whole input. -/
def chunkLoop (cap : Nat) (input : List Nat) : List (List Nat) :=
  chunkLoopF cap (input.length + 1) ⟨[], input⟩

theorem fillConsume_conserv (cap : Nat) (st : ReaderSt) :
    (fillConsume cap st).1 ++ (fillConsume cap st).2.src = st.buf ++ st.src ∧
    (fillConsume cap st).2.buf = [] := by
  obtain ⟨buf, src⟩ := st
  cases buf with
  | nil => simp [fillConsume]
  | cons b rest => simp [fillConsume]

theorem fillConsume_head_len (cap : Nat) (st : ReaderSt)
    (hbuf : st.buf.length ≤ cap) : (fillConsume cap st).1.length ≤ cap := by
  obtain ⟨buf, src⟩ := st
  cases buf with
  | nil => simpa [fillConsume] using List.length_take_le cap src
  | cons b rest => simpa [fillConsume] using hbuf

theorem fillConsume_head_ne (cap : Nat) (st : ReaderSt) (hcap : 0 < cap)
    (hne : st.buf ++ st.src ≠ []) : (fillConsume cap st).1 ≠ [] := by
  obtain ⟨buf, src⟩ := st
  cases buf with
  | nil =>
      cases src with
      | nil => simp at hne
      | cons c cs =>
          obtain ⟨k, rfl⟩ := Nat.exists_eq_succ_of_ne_zero (Nat.pos_iff_ne_zero.mp hcap)
          simp [fillConsume]
  | cons b rest => simp [fillConsume]

theorem readUntilGo_conserv (cap : Nat) (src : List Nat) : ∀ (pos : Nat),
    (readUntilGo cap pos src).1 ++ (readUntilGo cap pos src).2.buf ++
      (readUntilGo cap pos src).2.src = src := by
  induction src with
  | nil => intro pos; rfl
  | cons b rest ih =>
      intro pos
      by_cases hb : b = 10
      · subst hb
        simp [readUntilGo, List.take_append_drop]
      · simp only [readUntilGo, if_neg hb, List.cons_append]
        rw [ih]

theorem readUntilGo_shape (cap : Nat) (src : List Nat) : ∀ (pos : Nat),
    ((readUntilGo cap pos src).1 = src ∧
      (readUntilGo cap pos src).2 = ⟨[], []⟩ ∧ 10 ∉ src) ∨
    (∃ w, (readUntilGo cap pos src).1 = w ++ [10] ∧ 10 ∉ w) := by
  induction src with
  | nil => intro pos; exact Or.inl ⟨rfl, rfl, by simp⟩
  | cons b rest ih =>
      intro pos
      by_cases hb : b = 10
      · subst hb
        exact Or.inr ⟨[], by simp [readUntilGo], by simp⟩
      · rcases ih ((if pos = 0 then cap else pos) - 1) with ⟨h1, h2, h3⟩ | ⟨w, hw, hmem⟩
        · refine Or.inl ⟨?_, ?_, ?_⟩
          · simp only [readUntilGo, if_neg hb, h1]
          · simp only [readUntilGo, if_neg hb, h2]
          · simp only [List.mem_cons, not_or]
            exact ⟨by omega, h3⟩
        · refine Or.inr ⟨b :: w, ?_, ?_⟩
          · simp only [readUntilGo, if_neg hb, hw, List.cons_append]
          · simp only [List.mem_cons, not_or]
            exact ⟨by omega, hmem⟩

theorem readUntilGo_buf_le (cap : Nat) (src : List Nat) : ∀ (pos : Nat),
    pos ≤ cap → (readUntilGo cap pos src).2.buf.length ≤ cap := by
  induction src with
  | nil => intro pos hp; simp [readUntilGo]
  | cons b rest ih =>
      intro pos hp
      have hite : (if pos = 0 then cap else pos) - 1 ≤ cap := by
        by_cases h0 : pos = 0 <;> simp [h0] <;> omega
      by_cases hb : b = 10
      · subst hb
        simp only [readUntilGo]
        exact le_trans (List.length_take_le _ _) hite
      · simp only [readUntilGo, if_neg hb]
        exact ih _ hite

theorem chunkLoopF_spec (cap : Nat) (hcap : 0 < cap) :
    ∀ (fuel : Nat) (st : ReaderSt), st.buf.length + st.src.length < fuel →
      st.buf.length ≤ cap →
      (chunkLoopF cap fuel st).flatten = st.buf ++ st.src ∧
      (∀ c ∈ chunkLoopF cap fuel st, c ≠ []) ∧
      (∀ i c, (chunkLoopF cap fuel st).get? i = some c →
        i + 1 < (chunkLoopF cap fuel st).length → c.getLast? = some 10) ∧
      (∀ c ∈ chunkLoopF cap fuel st, ∃ head tail, c = head ++ tail ∧
        head.length ≤ cap ∧ ∀ x ∈ tail.dropLast, x ≠ 10) := by
  intro fuel
  induction fuel with
  | zero => intro st hlt hbuf; omega
  | succ fuel ih =>
      intro st hlt hbuf
      obtain ⟨hfc, hfcbuf⟩ := fillConsume_conserv cap st
      rw [show chunkLoopF cap (fuel + 1) st =
        (if (fillConsume cap st).1 ++ (readUntilGo cap 0 (fillConsume cap st).2.src).1 = []
         then []
         else ((fillConsume cap st).1 ++
            (readUntilGo cap 0 (fillConsume cap st).2.src).1) ::
          chunkLoopF cap fuel (readUntilGo cap 0 (fillConsume cap st).2.src).2) from rfl]
      set head := (fillConsume cap st).1 with hhead
      set src1 := (fillConsume cap st).2.src with hsrc1
      set tail := (readUntilGo cap 0 src1).1 with htail
      set st2 := (readUntilGo cap 0 src1).2 with hst2
      have hrc : tail ++ st2.buf ++ st2.src = src1 := readUntilGo_conserv cap src1 0
      by_cases hemp : head ++ tail = []
      · rw [if_pos hemp]
        obtain ⟨hheadnil, htailnil⟩ := List.append_eq_nil.mp hemp
        have hstnil : st.buf ++ st.src = [] := by
          by_contra hne
          exact fillConsume_head_ne cap st hcap hne hheadnil
        refine ⟨by simp [hstnil], by simp, ?_, by simp⟩
        intro i c hc hlt2
        simp at hc
      · rw [if_neg hemp]
        have hlen : head.length + (tail.length + (st2.buf.length + st2.src.length)) =
            st.buf.length + st.src.length := by
          have e1 := congrArg List.length hfc
          have e2 := congrArg List.length hrc
          simp only [List.length_append] at e1 e2
          omega
        have hchunk_pos : 0 < head.length + tail.length := by
          rcases Nat.eq_zero_or_pos (head.length + tail.length) with h0 | h0
          · exfalso
            apply hemp
            have : (head ++ tail).length = 0 := by
              simp only [List.length_append]
              omega
            exact List.length_eq_zero.mp this
          · exact h0
        obtain ⟨ihjoin, ihne, ihlast, ihdec⟩ :=
          ih st2 (by omega) (readUntilGo_buf_le cap src1 0 (by omega))
        refine ⟨?_, ?_, ?_, ?_⟩
        · rw [show ((head ++ tail) :: chunkLoopF cap fuel st2).flatten =
            (head ++ tail) ++ (chunkLoopF cap fuel st2).flatten from rfl,
            ihjoin, ← hfc, ← hrc]
          simp [List.append_assoc]
        · intro c hc
          rcases List.mem_cons.mp hc with rfl | hc
          · exact hemp
          · exact ihne c hc
        · intro i c hc hlt2
          cases i with
          | zero =>
              have hrest_ne : chunkLoopF cap fuel st2 ≠ [] := by
                intro h0
                rw [h0] at hlt2
                simp at hlt2
              have hst2_ne : st2.buf ++ st2.src ≠ [] := by
                intro h0
                rcases hrest : chunkLoopF cap fuel st2 with _ | ⟨c0, cs⟩
                · exact hrest_ne hrest
                · have hj : c0 ++ cs.flatten = [] := by
                    have hj0 := ihjoin
                    rw [hrest, h0] at hj0
                    simpa [List.flatten] using hj0
                  exact ihne c0 (by rw [hrest]; exact List.mem_cons_self _ _)
                    (List.append_eq_nil.mp hj).1
              obtain rfl : head ++ tail = c := by
                simpa using hc
              rcases readUntilGo_shape cap src1 0 with ⟨h1, h2, h3⟩ | ⟨w, hw, hmem⟩
              · exact absurd (by rw [hst2, h2]; rfl : st2.buf ++ st2.src = []) hst2_ne
              · rw [htail, hw, show head ++ (w ++ [10]) = (head ++ w) ++ [10] from
                  (List.append_assoc _ _ _).symm]
                exact List.getLast?_concat _
          | succ j =>
              simp only [List.get?_cons_succ] at hc
              simp only [List.length_cons] at hlt2
              exact ihlast j c hc (by omega)
        · intro c hc
          rcases List.mem_cons.mp hc with rfl | hc
          · refine ⟨head, tail, rfl, fillConsume_head_len cap st hbuf, ?_⟩
            rcases readUntilGo_shape cap src1 0 with ⟨h1, h2, h3⟩ | ⟨w, hw, hmem⟩
            · intro x hx h10
              subst h10
              have hxt : (10 : Nat) ∈ tail := (List.dropLast_sublist tail).subset hx
              rw [htail, h1] at hxt
              exact h3 hxt
            · intro x hx h10
              subst h10
              rw [htail, hw, List.dropLast_concat] at hx
              exact hmem hx
          · exact ihdec c hc

/-- C6 counterexample: on the input `A;1.5` with no trailing newline
(target size 2), the single chunk produced is the whole input, which
does not end at a record separator. -/
theorem c6_cex_no_trailing_separator :
    chunkLoop 2 [65, 59, 49, 46, 53] = [[65, 59, 49, 46, 53]] ∧
    ([65, 59, 49, 46, 53] : List Nat).getLast? ≠ some 10 := by
  constructor
  · rfl
  · decide

/-- C6 (amended): for any positive target size, the chunks appear in
source order with their concatenation equal to the input, every chunk is
nonempty, every chunk except possibly the last ends exactly at a newline
(the last ends at end of input instead when the input lacks a trailing
newline), each chunk is an up-to-target-size head plus a forward
extension that contains no newline before its final byte (the reader
never scans backward), and an empty first read produces no chunks at
all. -/
theorem c6_chunk_boundaries (cap : Nat) (input : List Nat) (hcap : 0 < cap) :
    (chunkLoop cap input).flatten = input ∧
    (∀ c ∈ chunkLoop cap input, c ≠ []) ∧
    (∀ i c, (chunkLoop cap input).get? i = some c →
      i + 1 < (chunkLoop cap input).length → c.getLast? = some 10) ∧
    (∀ c ∈ chunkLoop cap input, ∃ head tail, c = head ++ tail ∧
      head.length ≤ cap ∧ ∀ x ∈ tail.dropLast, x ≠ 10) ∧
    chunkLoop cap [] = [] := by
  have h := chunkLoopF_spec cap hcap (input.length + 1) ⟨[], input⟩
    (by simp) (by simp)
  refine ⟨?_, h.2.1, h.2.2.1, h.2.2.2, ?_⟩
  · have := h.1
    simpa [chunkLoop] using this
  · simp [chunkLoop, chunkLoopF, fillConsume, readUntilGo]

/-- C6 witness: the amended statement evaluated on the two-record input
`a;1.0` + newline + `b;2.0` + newline with target size 4: the two
chunks are the two lines, each ending at its separator. -/
theorem c6_chunk_boundaries_witness :
    chunkLoop 4 [97, 59, 49, 46, 48, 10, 98, 59, 50, 46, 48, 10] =
      [[97, 59, 49, 46, 48, 10], [98, 59, 50, 46, 48, 10]] ∧
    (chunkLoop 4 [97, 59, 49, 46, 48, 10, 98, 59, 50, 46, 48, 10]).flatten =
      [97, 59, 49, 46, 48, 10, 98, 59, 50, 46, 48, 10] := by
  refine ⟨by rfl, ?_⟩
  exact (c6_chunk_boundaries 4 [97, 59, 49, 46, 48, 10, 98, 59, 50, 46, 48, 10]
    (by decide)).1

/-! ### The Finalizer boundary case (C8) -/

/-- Byte-lexicographic strict order on names, the `Ord` of Rust byte
strings used by `a.station_name.cmp(&b.station_name)`. -/
def lexLt : List Nat → List Nat → Bool
  | [], [] => false
  | [], _ :: _ => true
  | _ :: _, [] => false
  | a :: as, b :: bs => if a < b then true else if b < a then false else lexLt as bs

/-- Insertion into a byte-lexicographically sorted list of records. -/
def insertByName (r : Record) : List Record → List Record
  | [] => [r]
  | x :: xs =>
      if lexLt r.station_name x.station_name then r :: x :: xs
      else x :: insertByName r xs

/-- Model of `par_sort_unstable_by(|a, b| a.station_name.cmp(&b.station_name))`:
sorting by byte-lexicographic name order (the comparator is a total
order and distinct entries have distinct names, so every correct sort
yields this result). -/
def sortByName (l : List Record) : List Record :=
  l.foldr insertByName []

/-- Model of `StationMap::print_map`, with the per-record rendering abstracted
(`Record`'s `Display` implementation goes through `f32` arithmetic,
which this embedding does not model): write `\x7b`, every sorted record
but the last followed by `, `, then the last record if any, then `\x7d`
and the newline of `writeln!`. -/
def print_map (render : Record → String) (m : Table) : String :=
  match sortByName (m.map Prod.snd) with
  | [] => "\x7b" ++ "\x7d" ++ "\n"
  | x :: xs =>
      "\x7b" ++
        String.join (((x :: xs).dropLast).map (fun r => render r ++ ", ")) ++
        (match (x :: xs).getLast? with
          | some last => render last
          | none => "") ++ "\x7d" ++ "\n"

/-- C8: on a zero-byte source the chunk loop terminates immediately
without producing any chunk (so no aggregation work is spawned), and the
Finalizer on the resulting zero-entry table writes exactly `\x7b\x7d`
followed by a newline, with no special-casing needed. -/
theorem c8_empty_input (cap : Nat) (render : Record → String) :
    chunkLoop cap [] = [] ∧ print_map render [] = "\x7b\x7d\n" := by
  constructor
  · simp [chunkLoop, chunkLoopF, fillConsume, readUntilGo]
  · rfl

/-! ### End-of-input drain of the Merge Queue (C7) -/

/-- An observable event on the shared state: a Chunk Aggregator
publishing its Local Aggregate Table (`locked.push(local_map)`), or a
drain (`read_queue_to_map`: take the whole queue under its lock, release
it, then fold every entry of every taken table into the shared map). -/
inductive QueueEv where
  | publish (t : Table)
  | drain

/-- The coordinator state: the Merge Queue and the Shared Aggregate
Table. -/
structure SharedSt where
  queue : List Table
  map : Table

/-- One event applied to the state, mirroring `spawn_buffer_worker`'s
push and `read_queue_to_map`'s take-all plus flatten-and-fold. -/
def stepEv (st : SharedSt) : QueueEv → SharedSt
  | .publish t => ⟨st.queue ++ [t], st.map⟩
  | .drain => ⟨[], (st.queue.flatten).foldl mergeRecord st.map⟩

/-- A run of the system from the initial empty state. -/
def runEvents (evs : List QueueEv) : SharedSt :=
  evs.foldl stepEv ⟨[], []⟩

/-- The Local Aggregate Tables published during a run, in order. -/
def publishedTables (evs : List QueueEv) : List Table :=
  evs.filterMap (fun e => match e with | .publish t => some t | .drain => none)

/-- The values of the entries with key `k` across a list of tables. -/
def valsAt (k : Nat) (ts : List Table) : List StationValues :=
  ((ts.flatten).filter (fun p => p.1 = k)).map (fun p => p.2.values)

/-- Folding one aggregate into the optional running aggregate held at
one key of the shared table. -/
def mergeValsStep (acc : Option StationValues) (v : StationValues) :
    Option StationValues :=
  match acc with
  | none => some v
  | some a => some (a.merge v)

/-- Folding a list of aggregates into an optional running aggregate. -/
def mergeVals (acc : Option StationValues) (l : List StationValues) :
    Option StationValues :=
  l.foldl mergeValsStep acc

/-- The values of the shared map entry at `k`. -/
def mapValuesAt (k : Nat) (m : Table) : Option StationValues :=
  (findT m k).map (fun r => r.values)

theorem mergeEntryStep_values (k : Nat) (acc : Option Record) (p : Nat × Record) :
    (mergeEntryStep k acc p).map (fun r => r.values) =
      if p.1 = k then
        mergeValsStep (acc.map (fun r => r.values)) p.2.values
      else acc.map (fun r => r.values) := by
  by_cases hp : p.1 = k
  · cases acc with
    | none => simp [mergeEntryStep, mergeValsStep, hp]
    | some r => simp [mergeEntryStep, mergeValsStep, hp]
  · cases acc with
    | none => simp [mergeEntryStep, hp]
    | some r => simp [mergeEntryStep, hp]

theorem mapValuesAt_foldl_mergeRecord (k : Nat) (l : List (Nat × Record)) :
    ∀ (m : Table), mapValuesAt k (l.foldl mergeRecord m) =
      mergeVals (mapValuesAt k m)
        ((l.filter (fun p => p.1 = k)).map (fun p => p.2.values)) := by
  induction l with
  | nil => intro m; rfl
  | cons p l ih =>
      intro m
      simp only [List.foldl_cons]
      rw [ih]
      by_cases hp : p.1 = k
      · rw [List.filter_cons, if_pos (by simp [hp]), List.map_cons]
        have hstep : mapValuesAt k (mergeRecord m p) =
            mergeValsStep (mapValuesAt k m) p.2.values := by
          unfold mapValuesAt
          rw [findT_mergeRecord, mergeEntryStep_values, if_pos hp]
        rw [hstep]
        rfl
      · rw [List.filter_cons, if_neg (by simp [hp])]
        have hstep : mapValuesAt k (mergeRecord m p) = mapValuesAt k m := by
          unfold mapValuesAt
          rw [findT_mergeRecord, mergeEntryStep_values, if_neg hp]
        rw [hstep]

theorem mergeVals_append (acc : Option StationValues) (a b : List StationValues) :
    mergeVals acc (a ++ b) = mergeVals (mergeVals acc a) b :=
  List.foldl_append _ _ _ _

theorem valsAt_append (k : Nat) (ts us : List Table) :
    valsAt k (ts ++ us) = valsAt k ts ++ valsAt k us := by
  unfold valsAt
  rw [List.flatten_append, List.filter_append, List.map_append]

theorem runEvents_combined (evs : List QueueEv) : ∀ (st : SharedSt) (k : Nat),
    mergeVals (mapValuesAt k (evs.foldl stepEv st).map)
        (valsAt k (evs.foldl stepEv st).queue) =
      mergeVals (mergeVals (mapValuesAt k st.map) (valsAt k st.queue))
        (valsAt k (publishedTables evs)) := by
  induction evs with
  | nil =>
      intro st k
      show _ = mergeVals _ (valsAt k [])
      rw [show valsAt k [] = [] from rfl]
      rfl
  | cons e evs ih =>
      intro st k
      cases e with
      | publish t =>
          simp only [List.foldl_cons]
          rw [ih]
          show mergeVals (mergeVals (mapValuesAt k st.map)
              (valsAt k (st.queue ++ [t]))) _ = _
          rw [valsAt_append, mergeVals_append]
          show _ = mergeVals (mergeVals (mapValuesAt k st.map) (valsAt k st.queue))
            (valsAt k (t :: publishedTables evs))
          rw [show valsAt k (t :: publishedTables evs) =
              valsAt k [t] ++ valsAt k (publishedTables evs) from
            valsAt_append k [t] (publishedTables evs)]
          rw [mergeVals_append]
      | drain =>
          simp only [List.foldl_cons]
          rw [ih]
          show mergeVals (mergeVals (mapValuesAt k
              ((st.queue.flatten).foldl mergeRecord st.map)) (valsAt k [])) _ = _
          rw [show valsAt k [] = [] from rfl, mapValuesAt_foldl_mergeRecord]
          rfl

/-- C7: however publishes and periodic drains interleave, one final
unconditional drain after the last publish leaves the Merge Queue empty
and a Shared Aggregate Table whose entry at every key holds exactly the
combination of the matching entries of every published Local Aggregate
Table, each folded in exactly once — including tables never picked up by
a periodic drain. -/
theorem c7_final_drain_folds_all (evs : List QueueEv) (k : Nat) :
    (runEvents (evs ++ [QueueEv.drain])).queue = [] ∧
    mapValuesAt k (runEvents (evs ++ [QueueEv.drain])).map =
      mergeVals none (valsAt k (publishedTables evs)) := by
  constructor
  · unfold runEvents
    rw [List.foldl_append]
    rfl
  · have h := runEvents_combined (evs ++ [QueueEv.drain]) ⟨[], []⟩ k
    have hq : (runEvents (evs ++ [QueueEv.drain])).queue = [] := by
      unfold runEvents
      rw [List.foldl_append]
      rfl
    unfold runEvents at h hq ⊢
    rw [hq] at h
    rw [show valsAt k [] = [] from rfl] at h
    rw [show mergeVals (mapValuesAt k ((evs ++ [QueueEv.drain]).foldl stepEv
        ⟨[], []⟩).map) [] = mapValuesAt k ((evs ++ [QueueEv.drain]).foldl stepEv
        ⟨[], []⟩).map from rfl] at h
    rw [h]
    rw [show publishedTables (evs ++ [QueueEv.drain]) = publishedTables evs by
      unfold publishedTables
      rw [List.filterMap_append]
      simp]
    rfl

end OneBrc
